import Mathlib

/-!
# Verification of the `ConceptLattice` core (`src/lattice.py`)

Shallow embedding of the class `ConceptLattice` from `src/lattice.py` and
theorems settling the specification claims about it.

Entities and attributes are opaque identifiers.  Python compares attribute
strings with `<` (code-point lexicographic order, a linear order), so the
embedding is parametric over a `LinearOrder` for the attribute type and
`DecidableEq` for the entity type.  Concrete instances use `List Char`
(a Python string is its sequence of code points), whose Mathlib linear order
is the same code-point lexicographic order Python uses on strings.

Python `set`s of identifiers become `Finset`s; `set` intersection, union,
difference, strict inclusion (`<`) map to `∩`, `∪`, `\`, `⊂`.
-/

set_option linter.unusedSectionVars false
set_option linter.unusedVariables false

namespace Cora

/-- Embedding of `ConceptLattice.__init__`: `self.entities = set(relation.keys())`
is the field `entities`; `self.relation` is a keyed lookup, embedded as a total
function whose values outside `entities` are never consulted. -/
structure ConceptLattice (ε α : Type) where
  entities : Finset ε
  relation : ε → Finset α

variable {ε α : Type} [DecidableEq ε] [LinearOrder α]

/-- Embedding of `self.attributes`: the union of the attribute sets of all entities. -/
def ConceptLattice.attributes (ctx : ConceptLattice ε α) : Finset α :=
  ctx.entities.sup ctx.relation

/-- Embedding of `ConceptLattice.invert_relation`, as a lookup: the set of entities
possessing attribute `a`.  An attribute `a` is a key of the Python dict
`self.inverted_relation` exactly when some entity has it, i.e. when
`a ∈ ctx.attributes`, equivalently when this set is non-empty
(lemma `invert_relation_nonempty_iff`). -/
def ConceptLattice.invert_relation (ctx : ConceptLattice ε α) (a : α) : Finset ε :=
  ctx.entities.filter (fun e => a ∈ ctx.relation e)

/-- The attributes of `A` kept by the guard `if attribute in self.inverted_relation`
inside `up`: those that are keys of the inverted relation. -/
def ConceptLattice.upPresent (ctx : ConceptLattice ε α) (A : Finset α) : Finset α :=
  A.filter (fun a => a ∈ ctx.attributes)

/-- Embedding of `ConceptLattice.up`.  `up(∅) = ∅` (the source's early return).  For
non-empty `A`, Python intersects the entity sets of the attributes of `A`
present in the inverted relation; when at least one attribute is present this
intersection equals this `Finset.filter` of the entity universe (every
`inverted_relation` value is a set of entities).  When `A` is non-empty and
*no* attribute of `A` is present, Python evaluates `set.intersection()` with
zero arguments, which raises `TypeError`; that error case is recorded by
`upRaisesTypeError` below, and the value of this total function there is never
consulted along any reachable call path of the source. -/
def ConceptLattice.up (ctx : ConceptLattice ε α) (A : Finset α) : Finset ε :=
  if A = ∅ then ∅
  else ctx.entities.filter (fun e => ∀ a ∈ ctx.upPresent A, e ∈ ctx.invert_relation a)

/-- The exact condition under which the Python `up` raises `TypeError`:
a non-empty query all of whose attributes are absent from the inverted
relation, making `set.intersection(*(...))` an intersection of zero sets. -/
def ConceptLattice.upRaisesTypeError (ctx : ConceptLattice ε α) (A : Finset α) : Prop :=
  A ≠ ∅ ∧ ctx.upPresent A = ∅

instance (ctx : ConceptLattice ε α) (A : Finset α) :
    Decidable (ctx.upRaisesTypeError A) := by
  unfold ConceptLattice.upRaisesTypeError
  infer_instance

/-- Embedding of `ConceptLattice.down`.  `down(∅)` returns the full attribute universe.
For non-empty `B`, Python intersects `self.relation[e]` over the entities of
`B` present as keys of `self.relation` (i.e. members of `entities`); when at
least one is present the intersection equals this filter of the attribute
universe.  All reachable calls pass subsets of `entities`. -/
def ConceptLattice.down (ctx : ConceptLattice ε α) (B : Finset ε) : Finset α :=
  if B = ∅ then ctx.attributes
  else ctx.attributes.filter
    (fun t => ∀ e ∈ B.filter (fun e => e ∈ ctx.entities), t ∈ ctx.relation e)

/-- Embedding of `ConceptLattice.closure_at`: closure of an attribute set. -/
def ConceptLattice.closure_at (ctx : ConceptLattice ε α) (A : Finset α) : Finset α :=
  ctx.down (ctx.up A)

/-- Embedding of `ConceptLattice.closure_ent`: closure of an entity set. -/
def ConceptLattice.closure_ent (ctx : ConceptLattice ε α) (B : Finset ε) : Finset ε :=
  ctx.up (ctx.down B)

/-- The elements of a `Finset` listed in ascending order (insertion sort lifted
to the multiset quotient; on duplicate-free input the ascending arrangement is
unique, so the choice of sorting algorithm is immaterial). -/
def finsetSortAsc (s : Finset α) : List α :=
  Quotient.liftOn s.val (fun l => l.insertionSort (· ≤ ·))
    (fun l l' h => List.eq_of_perm_of_sorted
      (((l.perm_insertionSort (· ≤ ·)).trans h).trans (l'.perm_insertionSort (· ≤ ·)).symm)
      (l.sorted_insertionSort (· ≤ ·)) (l'.sorted_insertionSort (· ≤ ·)))

/-- Embedding of `sorted(self.attributes, reverse=True)`: the attribute universe as a
strictly descending list.  Python's `sorted(..., reverse=True)` on a
duplicate-free collection is exactly the unique descending arrangement,
i.e. the reverse of the unique ascending arrangement. -/
def ConceptLattice.sortedAttributesDesc (ctx : ConceptLattice ε α) : List α :=
  (finsetSortAsc ctx.attributes).reverse

/-- The `for attribute in sorted(self.attributes, reverse=True)` loop body of
`ConceptLattice.next_closure`.  The mutable `curr_closure` is the second
argument; falling off the end of the loop is Python's implicit `return None`,
modelled as `none`. -/
def ConceptLattice.nextClosureScan (ctx : ConceptLattice ε α) :
    List α → Finset α → Option (Finset α)
  | [], _ => none
  | a :: rest, W =>
    if a ∈ W then ctx.nextClosureScan rest (W.erase a)
    else
      let candidate := ctx.closure_at (insert a W)
      if candidate ≠ W ∧ ¬ ∃ b ∈ candidate \ W, b < a then some candidate
      else ctx.nextClosureScan rest W

/-- Embedding of `ConceptLattice.next_closure`. -/
def ConceptLattice.next_closure (ctx : ConceptLattice ε α) (last_closure : Finset α) :
    Option (Finset α) :=
  ctx.nextClosureScan ctx.sortedAttributesDesc last_closure

/-! Kernel-friendly equality deciders.  The core `List.hasDecEq` and the
derived `Option` equality rebuild the result with `Eq.rec`, whose kernel
reduction requires the compared values to be definitionally equal; for values
containing `Finset`s (quotients) that are only propositionally equal, `decide`
would get stuck.  These equivalent instances produce the decision by
`decidable_of_iff`, which always reduces. -/

def decEqListNoK {β : Type} [DecidableEq β] : (l₁ l₂ : List β) → Decidable (l₁ = l₂)
  | [], [] => isTrue rfl
  | [], _ :: _ => isFalse (fun h => List.noConfusion h)
  | _ :: _, [] => isFalse (fun h => List.noConfusion h)
  | a :: as, b :: bs =>
    have : Decidable (as = bs) := decEqListNoK as bs
    decidable_of_iff (a = b ∧ as = bs) (by rw [List.cons.injEq])

instance (priority := 2000) {β : Type} [DecidableEq β] : DecidableEq (List β) :=
  decEqListNoK

def decEqOptionNoK {β : Type} [DecidableEq β] : (o₁ o₂ : Option β) → Decidable (o₁ = o₂)
  | none, none => isTrue rfl
  | none, some _ => isFalse (fun h => Option.noConfusion h)
  | some _, none => isFalse (fun h => Option.noConfusion h)
  | some a, some b => decidable_of_iff (a = b) (by rw [Option.some.injEq])

instance (priority := 2000) {β : Type} [DecidableEq β] : DecidableEq (Option β) :=
  decEqOptionNoK

/-- One discovered concept: the Python dict
`{"id": i, "data": {"extension": ..., "intension": ...}}` flattened. -/
structure Concept (ε α : Type) where
  id : Nat
  extension : Finset ε
  intension : Finset α

instance [DecidableEq ε] [DecidableEq α] : DecidableEq (Concept ε α) := fun c d =>
  decidable_of_iff
    (c.id = d.id ∧ c.extension = d.extension ∧ c.intension = d.intension)
    (by cases c; cases d; simp [Concept.mk.injEq])

/-- The `while` loop of `ConceptLattice.extract_concepts`, accumulating the
`intensions` list.  `fuel` bounds the number of iterations (the loop is proved
to stop long before any sufficiently large fuel runs out).  The source's early
`return` (when the successor equals `set()`) yields Python `None`; the case in
which `next_closure` itself returns `None` makes the next Python iteration
crash.  Both non-list outcomes are modelled as `none`, and both branches are
proved unreachable. -/
def ConceptLattice.extractLoop (ctx : ConceptLattice ε α) :
    Nat → Finset α → Option (List (Finset α))
  | 0, _ => none
  | fuel + 1, curr =>
    if curr = ctx.attributes then some []
    else
      match ctx.next_closure curr with
      | none => none
      | some c =>
        if c = ∅ then none
        else (ctx.extractLoop fuel c).map (fun l => c :: l)

/-- The `intensions` list computed by `ConceptLattice.extract_concepts`.
The fuel `2 ^ |attributes| + 1` strictly exceeds the number of subsets of the
attribute universe, hence (proved below) is never exhausted. -/
def ConceptLattice.extract_intensions (ctx : ConceptLattice ε α) :
    Option (List (Finset α)) :=
  ctx.extractLoop (2 ^ ctx.attributes.card + 1) ∅

/-- Embedding of `ConceptLattice.extract_concepts`: wraps each discovered intension with its
sequential id and its extension `up(intension)`. -/
def ConceptLattice.extract_concepts (ctx : ConceptLattice ε α) :
    Option (List (Concept ε α)) :=
  (ctx.extract_intensions).map
    (fun ints => ints.enum.map (fun p => ⟨p.1, ctx.up p.2, p.2⟩))

/-- Embedding of `ConceptLattice.is_direct_child`: `child` covers `parent` (strict superset
of intensions with no discovered concept strictly in between).  Python's `<`
on sets is strict inclusion `⊂`. -/
def is_direct_child (concepts : List (Concept ε α)) (parent child : Concept ε α) : Prop :=
  parent.intension ⊂ child.intension ∧
    ∀ other ∈ concepts,
      ¬ (parent.intension ⊂ other.intension ∧ other.intension ⊂ child.intension)

instance (concepts : List (Concept ε α)) (parent child : Concept ε α) :
    Decidable (is_direct_child concepts parent child) := by
  unfold is_direct_child; infer_instance

/-- The adjacency matrix built by `ConceptLattice.child_subchild_graph`
(before it is handed to the out-of-scope plotting code): entry `(i, j)` is `1`
iff `i ≠ j`, the `i`-th intension is a strict subset of the `j`-th, and
`is_direct_child` holds; all other entries (including out-of-range indices)
are `0`. -/
def child_subchild_adj (concepts : List (Concept ε α)) (i j : Nat) : Nat :=
  match concepts[i]?, concepts[j]? with
  | some parent, some child =>
    if i ≠ j ∧ parent.intension ⊂ child.intension ∧ is_direct_child concepts parent child
    then 1 else 0
  | _, _ => 0

/-- A closed attribute set: a fixed point of `closure_at`. -/
def ConceptLattice.IsClosed (ctx : ConceptLattice ε α) (S : Finset α) : Prop :=
  ctx.closure_at S = S

/-! ## Basic properties of the Galois operators -/

namespace ConceptLattice

variable (ctx : ConceptLattice ε α)

theorem mem_attributes {a : α} :
    a ∈ ctx.attributes ↔ ∃ e ∈ ctx.entities, a ∈ ctx.relation e := by
  simp [attributes, Finset.mem_sup]

theorem invert_relation_subset (a : α) : ctx.invert_relation a ⊆ ctx.entities :=
  Finset.filter_subset _ _

theorem mem_invert_relation {e : ε} {a : α} :
    e ∈ ctx.invert_relation a ↔ e ∈ ctx.entities ∧ a ∈ ctx.relation e :=
  Finset.mem_filter

/-- The keys of the Python dict `self.inverted_relation` are exactly the
attribute universe: `a` is a key iff its entity set is non-empty. -/
theorem invert_relation_nonempty_iff {a : α} :
    a ∈ ctx.attributes ↔ ctx.invert_relation a ≠ ∅ := by
  rw [← Finset.nonempty_iff_ne_empty, mem_attributes]
  constructor
  · rintro ⟨e, he, ha⟩
    exact ⟨e, ctx.mem_invert_relation.2 ⟨he, ha⟩⟩
  · rintro ⟨e, he⟩
    rcases ctx.mem_invert_relation.1 he with ⟨h1, h2⟩
    exact ⟨e, h1, h2⟩

theorem upPresent_eq_of_subset {A : Finset α} (h : A ⊆ ctx.attributes) :
    ctx.upPresent A = A :=
  Finset.filter_true_of_mem (fun a ha => h ha)

theorem upPresent_subset (A : Finset α) : ctx.upPresent A ⊆ A :=
  Finset.filter_subset _ _

theorem up_empty : ctx.up ∅ = ∅ := by simp [up]

theorem down_empty : ctx.down ∅ = ctx.attributes := by simp [down]

theorem up_subset (A : Finset α) : ctx.up A ⊆ ctx.entities := by
  unfold up
  split
  · exact Finset.empty_subset _
  · exact Finset.filter_subset _ _

theorem down_subset (B : Finset ε) : ctx.down B ⊆ ctx.attributes := by
  unfold down
  split
  · exact Finset.Subset.refl _
  · exact Finset.filter_subset _ _

theorem mem_up {A : Finset α} (hne : A ≠ ∅) {e : ε} :
    e ∈ ctx.up A ↔ e ∈ ctx.entities ∧ ∀ a ∈ ctx.upPresent A, e ∈ ctx.invert_relation a := by
  rw [up, if_neg hne, Finset.mem_filter]

theorem mem_up_of_subset {A : Finset α} (hne : A ≠ ∅) (hA : A ⊆ ctx.attributes) {e : ε} :
    e ∈ ctx.up A ↔ e ∈ ctx.entities ∧ ∀ a ∈ A, e ∈ ctx.invert_relation a := by
  rw [ctx.mem_up hne, ctx.upPresent_eq_of_subset hA]

theorem mem_down {B : Finset ε} (hne : B ≠ ∅) (hB : B ⊆ ctx.entities) {t : α} :
    t ∈ ctx.down B ↔ t ∈ ctx.attributes ∧ ∀ e ∈ B, t ∈ ctx.relation e := by
  rw [down, if_neg hne, Finset.mem_filter, Finset.filter_true_of_mem (fun e he => hB he)]

theorem up_antitone {A B : Finset α} (hne : A ≠ ∅) (hAB : A ⊆ B) : ctx.up B ⊆ ctx.up A := by
  have hBne : B ≠ ∅ := fun h => hne (Finset.subset_empty.1 (h ▸ hAB))
  intro e he
  rw [ctx.mem_up hBne] at he
  rw [ctx.mem_up hne]
  exact ⟨he.1, fun a ha => he.2 a (Finset.filter_subset_filter _ hAB ha)⟩

theorem down_antitone {X Y : Finset ε} (hne : X ≠ ∅) (hXY : X ⊆ Y) :
    ctx.down Y ⊆ ctx.down X := by
  have hYne : Y ≠ ∅ := fun h => hne (Finset.subset_empty.1 (h ▸ hXY))
  intro t ht
  rw [down, if_neg hYne, Finset.mem_filter] at ht
  rw [down, if_neg hne, Finset.mem_filter]
  exact ⟨ht.1, fun e he => ht.2 e (Finset.filter_subset_filter _ hXY he)⟩

theorem closure_at_subset (A : Finset α) : ctx.closure_at A ⊆ ctx.attributes :=
  ctx.down_subset _

theorem closure_at_empty : ctx.closure_at ∅ = ctx.attributes := by
  rw [closure_at, up_empty, down_empty]

theorem subset_closure_at {A : Finset α} (hne : A ≠ ∅) (hA : A ⊆ ctx.attributes) :
    A ⊆ ctx.closure_at A := by
  by_cases hup : ctx.up A = ∅
  · rw [closure_at, hup, down_empty]
    exact hA
  · intro t ht
    rw [closure_at, ctx.mem_down hup (ctx.up_subset A)]
    refine ⟨hA ht, fun e he => ?_⟩
    rw [ctx.mem_up_of_subset hne hA] at he
    exact (ctx.mem_invert_relation.1 (he.2 t ht)).2

theorem closure_at_mono {A B : Finset α} (hne : A ≠ ∅) (hAB : A ⊆ B) :
    ctx.closure_at A ⊆ ctx.closure_at B := by
  have hup : ctx.up B ⊆ ctx.up A := ctx.up_antitone hne hAB
  by_cases hB : ctx.up B = ∅
  · have hBU : ctx.closure_at B = ctx.attributes := by rw [closure_at, hB, down_empty]
    rw [hBU]
    exact ctx.closure_at_subset A
  · exact ctx.down_antitone hB hup

theorem up_closure_at {A : Finset α} (hne : A ≠ ∅) (hA : A ⊆ ctx.attributes) :
    ctx.up (ctx.closure_at A) = ctx.up A := by
  have hCne : ctx.closure_at A ≠ ∅ := by
    intro h
    exact hne (Finset.subset_empty.1 (h ▸ ctx.subset_closure_at hne hA))
  by_cases hup : ctx.up A = ∅
  · have hCU : ctx.closure_at A = ctx.attributes := by rw [closure_at, hup, down_empty]
    have hUA : ctx.up ctx.attributes ⊆ ctx.up A := ctx.up_antitone hne hA
    rw [hCU, hup]
    exact Finset.subset_empty.1 (hup ▸ hUA)
  · apply Finset.Subset.antisymm
    · exact ctx.up_antitone hne (ctx.subset_closure_at hne hA)
    · intro e he
      rw [ctx.mem_up_of_subset hCne (ctx.closure_at_subset A)]
      refine ⟨ctx.up_subset A he, fun a ha => ?_⟩
      rw [closure_at, ctx.mem_down hup (ctx.up_subset A)] at ha
      exact ctx.mem_invert_relation.2 ⟨ctx.up_subset A he, ha.2 e he⟩

theorem closure_at_idem {A : Finset α} (hne : A ≠ ∅) (hA : A ⊆ ctx.attributes) :
    ctx.closure_at (ctx.closure_at A) = ctx.closure_at A := by
  show ctx.down (ctx.up (ctx.closure_at A)) = ctx.closure_at A
  rw [ctx.up_closure_at hne hA]
  rfl

theorem closure_at_univ : ctx.closure_at ctx.attributes = ctx.attributes := by
  by_cases hU : ctx.attributes = (∅ : Finset α)
  · rw [hU, closure_at_empty, hU]
  · exact Finset.Subset.antisymm (ctx.closure_at_subset _)
      (ctx.subset_closure_at hU (Finset.Subset.refl _))

theorem isClosed_univ : ctx.IsClosed ctx.attributes := ctx.closure_at_univ

theorem isClosed_closure_at {A : Finset α} (hA : A ⊆ ctx.attributes) :
    ctx.IsClosed (ctx.closure_at A) := by
  by_cases hne : A = ∅
  · rw [IsClosed, hne, closure_at_empty]
    exact ctx.closure_at_univ
  · exact ctx.closure_at_idem hne hA

theorem IsClosed.subset_univ {ctx : ConceptLattice ε α} {S : Finset α}
    (h : ctx.IsClosed S) : S ⊆ ctx.attributes :=
  h ▸ ctx.closure_at_subset S

theorem IsClosed.ne_empty {ctx : ConceptLattice ε α} {S : Finset α}
    (hU : ctx.attributes ≠ ∅) (h : ctx.IsClosed S) : S ≠ ∅ := by
  intro hS
  rw [IsClosed, hS, closure_at_empty] at h
  exact hU h

end ConceptLattice

/-! ## The lectic order

The traversal order of the Next-Closure scan: `X` precedes `Y` when, at the
smallest attribute on which they differ, it is `Y` that contains it.  The
quantifier in `ltAt` is bounded by `X ∪ Y` to make the order decidable; the
unbounded form is recovered by `ltAt_agree`. -/

/-- Relation stating that `Y` is reached from `X` by adding pivot `i` and changing only attributes
larger than `i`: `i ∈ Y \ X`, and `X` and `Y` agree strictly below `i`. -/
def ltAt (i : α) (X Y : Finset α) : Prop :=
  i ∈ Y ∧ i ∉ X ∧ ∀ x ∈ X ∪ Y, x < i → (x ∈ X ↔ x ∈ Y)

instance (i : α) (X Y : Finset α) : Decidable (ltAt i X Y) := by
  unfold ltAt; infer_instance

/-- The lectic (reverse-lexicographic) strict order on attribute sets. -/
def lectic (X Y : Finset α) : Prop :=
  ∃ i ∈ Y, ltAt i X Y

instance (X Y : Finset α) : Decidable (lectic X Y) := by
  unfold lectic; infer_instance

theorem ltAt_agree {i : α} {X Y : Finset α} (h : ltAt i X Y) {x : α} (hx : x < i) :
    x ∈ X ↔ x ∈ Y := by
  by_cases hxy : x ∈ X ∪ Y
  · exact h.2.2 x hxy hx
  · rw [Finset.mem_union] at hxy
    push_neg at hxy
    exact iff_of_false hxy.1 hxy.2

theorem lectic_of_ltAt {i : α} {X Y : Finset α} (h : ltAt i X Y) : lectic X Y :=
  ⟨i, h.1, h⟩

theorem lectic_irrefl (X : Finset α) : ¬ lectic X X := by
  rintro ⟨i, hi, hmem, hni, _⟩
  exact hni hmem

theorem lectic_trans {X Y Z : Finset α} (hXY : lectic X Y) (hYZ : lectic Y Z) :
    lectic X Z := by
  rcases hXY with ⟨i, _, hiY, hiX, hiAg⟩
  rcases hYZ with ⟨j, _, hjZ, hjY, hjAg⟩
  have hXYa : ∀ {x : α}, x < i → (x ∈ X ↔ x ∈ Y) := fun hx => ltAt_agree ⟨hiY, hiX, hiAg⟩ hx
  have hYZa : ∀ {x : α}, x < j → (x ∈ Y ↔ x ∈ Z) := fun hx => ltAt_agree ⟨hjZ, hjY, hjAg⟩ hx
  rcases lt_trichotomy i j with hij | rfl | hji
  · refine lectic_of_ltAt (i := i) ⟨(hYZa hij).1 hiY, hiX, fun x _ hx => ?_⟩
    exact (hXYa hx).trans (hYZa (hx.trans hij))
  · exact absurd hiY hjY
  · refine lectic_of_ltAt (i := j) ⟨hjZ, fun hjX => hjY ((hXYa hji).1 hjX), fun x _ hx => ?_⟩
    exact (hXYa (hx.trans hji)).trans (hYZa hx)

/-- A strict subset (indeed any subset) is lectically no larger. -/
theorem subset_eq_or_lectic {X Y : Finset α} (h : X ⊆ Y) : X = Y ∨ lectic X Y := by
  by_cases heq : X = Y
  · exact Or.inl heq
  · refine Or.inr ?_
    have hne : (Y \ X).Nonempty := by
      rw [Finset.sdiff_nonempty]
      exact fun hYX => heq (Finset.Subset.antisymm h hYX)
    set i := (Y \ X).min' hne with hidef
    have hiYX : i ∈ Y \ X := Finset.min'_mem _ hne
    rw [Finset.mem_sdiff] at hiYX
    refine lectic_of_ltAt (i := i) ⟨hiYX.1, hiYX.2, fun x _ hx => ?_⟩
    refine ⟨fun hxX => h hxX, fun hxY => ?_⟩
    by_contra hxX
    exact absurd (Finset.min'_le _ x (Finset.mem_sdiff.2 ⟨hxY, hxX⟩)) (not_le.2 hx)

/-- The lectic order is total on distinct sets. -/
theorem lectic_total {X Y : Finset α} (h : X ≠ Y) : lectic X Y ∨ lectic Y X := by
  have hne : ((X \ Y) ∪ (Y \ X)).Nonempty := by
    rw [Finset.nonempty_iff_ne_empty]
    intro hd
    apply h
    apply Finset.Subset.antisymm
    · intro x hx
      by_contra hxY
      have : x ∈ (X \ Y) ∪ (Y \ X) := Finset.mem_union_left _ (Finset.mem_sdiff.2 ⟨hx, hxY⟩)
      simp [hd] at this
    · intro x hx
      by_contra hxX
      have : x ∈ (X \ Y) ∪ (Y \ X) := Finset.mem_union_right _ (Finset.mem_sdiff.2 ⟨hx, hxX⟩)
      simp [hd] at this
  set i := ((X \ Y) ∪ (Y \ X)).min' hne with hidef
  have hmin : ∀ x ∈ (X \ Y) ∪ (Y \ X), i ≤ x := fun x hx => Finset.min'_le _ x hx
  have hagree : ∀ x, x < i → (x ∈ X ↔ x ∈ Y) := by
    intro x hx
    constructor
    · intro hxX
      by_contra hxY
      exact absurd (hmin x (Finset.mem_union_left _ (Finset.mem_sdiff.2 ⟨hxX, hxY⟩)))
        (not_le.2 hx)
    · intro hxY
      by_contra hxX
      exact absurd (hmin x (Finset.mem_union_right _ (Finset.mem_sdiff.2 ⟨hxY, hxX⟩)))
        (not_le.2 hx)
  have hiu : i ∈ (X \ Y) ∪ (Y \ X) := Finset.min'_mem _ hne
  rw [Finset.mem_union, Finset.mem_sdiff, Finset.mem_sdiff] at hiu
  rcases hiu with ⟨hiX, hiY⟩ | ⟨hiY, hiX⟩
  · exact Or.inr (lectic_of_ltAt (i := i) ⟨hiX, hiY, fun x _ hx => (hagree x hx).symm⟩)
  · exact Or.inl (lectic_of_ltAt (i := i) ⟨hiY, hiX, fun x _ hx => hagree x hx⟩)

theorem empty_lectic {Y : Finset α} (h : Y ≠ ∅) : lectic ∅ Y := by
  rcases subset_eq_or_lectic (Finset.empty_subset Y) with heq | hl
  · exact absurd heq.symm h
  · exact hl

theorem lectic_asymm {X Y : Finset α} (h : lectic X Y) : ¬ lectic Y X :=
  fun h' => lectic_irrefl X (lectic_trans h h')

theorem lectic_ne {X Y : Finset α} (h : lectic X Y) : X ≠ Y := by
  rintro rfl
  exact lectic_irrefl X h

/-- No subset of `U` is lectically above `U` itself. -/
theorem not_lectic_univ {U D : Finset α} (hD : D ⊆ U) : ¬ lectic U D := by
  rintro ⟨i, hiD, _, hiU, hagree⟩
  exact hiU (hD hiD)

/-! ## Correctness of the Next-Closure scan

`oplus W i` is the classical `W ⊕ i` of Ganter's Next-Closure analysis, and
`acc W i` says that pivot `i` is accepted by the scan when the working set
has been stripped down to `W`'s part below `i`. -/

namespace ConceptLattice

variable (ctx : ConceptLattice ε α)

/-- Ganter's `W ⊕ i`: the closure of `W`'s elements below `i` together with `i`. -/
def oplus (W : Finset α) (i : α) : Finset α :=
  ctx.closure_at (insert i (W.filter (· < i)))

/-- Pivot `i` is acceptable for `W`: `i ∉ W` and the candidate `W ⊕ i`
changes `W` only at `i` and above. -/
def acc (W : Finset α) (i : α) : Prop :=
  i ∉ W ∧ ltAt i W (ctx.oplus W i)

theorem oplus_base_ne_empty (W : Finset α) (i : α) :
    insert i (W.filter (· < i)) ≠ (∅ : Finset α) :=
  Finset.insert_ne_empty _ _

theorem oplus_base_subset {W : Finset α} {i : α} (hW : W ⊆ ctx.attributes)
    (hi : i ∈ ctx.attributes) : insert i (W.filter (· < i)) ⊆ ctx.attributes := by
  intro x hx
  rcases Finset.mem_insert.1 hx with rfl | hx
  · exact hi
  · exact hW (Finset.filter_subset _ _ hx)

theorem base_subset_oplus {W : Finset α} {i : α} (hW : W ⊆ ctx.attributes)
    (hi : i ∈ ctx.attributes) : insert i (W.filter (· < i)) ⊆ ctx.oplus W i :=
  ctx.subset_closure_at (oplus_base_ne_empty W i) (ctx.oplus_base_subset hW hi)

theorem mem_oplus_self {W : Finset α} {i : α} (hW : W ⊆ ctx.attributes)
    (hi : i ∈ ctx.attributes) : i ∈ ctx.oplus W i :=
  ctx.base_subset_oplus hW hi (Finset.mem_insert_self _ _)

theorem oplus_subset_univ (W : Finset α) (i : α) : ctx.oplus W i ⊆ ctx.attributes :=
  ctx.closure_at_subset _

theorem isClosed_oplus {W : Finset α} {i : α} (hW : W ⊆ ctx.attributes)
    (hi : i ∈ ctx.attributes) : ctx.IsClosed (ctx.oplus W i) :=
  ctx.isClosed_closure_at (ctx.oplus_base_subset hW hi)

/-- When every element of `W` is below `a`, the candidate computed by the scan
body is exactly `W ⊕ a`. -/
theorem closure_insert_eq_oplus {W : Finset α} {a : α} (hWlt : ∀ x ∈ W, x < a) :
    ctx.closure_at (insert a W) = ctx.oplus W a := by
  rw [oplus, Finset.filter_true_of_mem hWlt]

/-- The scan body's acceptance test (`candidate != curr` together with the
absence of added attributes below the pivot) is exactly `acc`. -/
theorem accept_iff {W : Finset α} {a : α} (hWU : W ⊆ ctx.attributes)
    (haU : a ∈ ctx.attributes) (hWlt : ∀ x ∈ W, x < a) (haW : a ∉ W) :
    (ctx.closure_at (insert a W) ≠ W ∧ ¬ ∃ b ∈ ctx.closure_at (insert a W) \ W, b < a) ↔
      ctx.acc W a := by
  rw [ctx.closure_insert_eq_oplus hWlt]
  constructor
  · rintro ⟨hne, hnb⟩
    refine ⟨haW, ctx.mem_oplus_self hWU haU, haW, fun x hx hxa => ?_⟩
    constructor
    · intro hxW
      exact ctx.base_subset_oplus hWU haU
        (Finset.mem_insert_of_mem (Finset.mem_filter.2 ⟨hxW, hWlt x hxW⟩))
    · intro hxO
      by_contra hxW
      exact hnb ⟨x, Finset.mem_sdiff.2 ⟨hxO, hxW⟩, hxa⟩
  · rintro ⟨haW', hmem, _, hagree⟩
    constructor
    · intro heq
      exact haW (heq ▸ hmem)
    · rintro ⟨b, hb, hba⟩
      rcases Finset.mem_sdiff.1 hb with ⟨hbO, hbW⟩
      exact hbW ((hagree b (Finset.mem_union_right _ hbO) hba).2 hbO)

/-- Pivot safety (Ganter): if a closed `B` is lectically above `W` at pivot
`i`, then `W ⊕ i ⊆ B` and `i` is an acceptable pivot. -/
theorem ltAt_oplus_subset_acc {W B : Finset α} {i : α} (hWU : W ⊆ ctx.attributes)
    (hBU : B ⊆ ctx.attributes) (hBc : ctx.IsClosed B) (h : ltAt i W B) :
    ctx.oplus W i ⊆ B ∧ ctx.acc W i := by
  have hiB : i ∈ B := h.1
  have hiU : i ∈ ctx.attributes := hBU hiB
  have hbase : insert i (W.filter (· < i)) ⊆ B := by
    intro x hx
    rcases Finset.mem_insert.1 hx with rfl | hx
    · exact hiB
    · rcases Finset.mem_filter.1 hx with ⟨hxW, hxi⟩
      exact (ltAt_agree h hxi).1 hxW
  have hsub : ctx.oplus W i ⊆ B := by
    have := ctx.closure_at_mono (oplus_base_ne_empty W i) hbase
    rw [hBc] at this
    exact this
  refine ⟨hsub, h.2.1, ctx.mem_oplus_self hWU hiU, h.2.1, fun x hx hxi => ?_⟩
  constructor
  · intro hxW
    exact ctx.base_subset_oplus hWU hiU
      (Finset.mem_insert_of_mem (Finset.mem_filter.2 ⟨hxW, hxi⟩))
  · intro hxO
    exact (ltAt_agree h hxi).2 (hsub hxO)

/-- Minimality (Ganter): if a closed `B` is lectically above `W` at pivot `i`,
and `j ≥ i` is an acceptable pivot, then `W ⊕ j` is lectically no larger
than `B`. -/
theorem oplus_eq_or_lectic {W B : Finset α} {i j : α} (hWU : W ⊆ ctx.attributes)
    (hBU : B ⊆ ctx.attributes) (hBc : ctx.IsClosed B) (hiB : ltAt i W B)
    (hj : ctx.acc W j) (hij : i ≤ j) : ctx.oplus W j = B ∨ lectic (ctx.oplus W j) B := by
  rcases eq_or_lt_of_le hij with rfl | hlt
  · exact subset_eq_or_lectic (ctx.ltAt_oplus_subset_acc hWU hBU hBc hiB).1
  · refine Or.inr (lectic_of_ltAt (i := i) ⟨hiB.1, ?_, fun x hx hxi => ?_⟩)
    · intro hiO
      exact hiB.2.1 ((ltAt_agree hj.2 hlt).2 hiO)
    · constructor
      · intro hxO
        exact (ltAt_agree hiB hxi).1 ((ltAt_agree hj.2 (hxi.trans hlt)).2 hxO)
      · intro hxB
        exact (ltAt_agree hj.2 (hxi.trans hlt)).1 ((ltAt_agree hiB hxi).2 hxB)

/-- The working set shrinks by `erase` only above the pivots still to be
scanned, so `W ⊕ j` is unchanged. -/
theorem oplus_erase {W : Finset α} {a j : α} (hja : j < a) :
    ctx.oplus (W.erase a) j = ctx.oplus W j := by
  have : (W.erase a).filter (· < j) = W.filter (· < j) := by
    ext x
    simp only [Finset.mem_filter, Finset.mem_erase]
    constructor
    · rintro ⟨⟨hxa, hxW⟩, hxj⟩
      exact ⟨hxW, hxj⟩
    · rintro ⟨hxW, hxj⟩
      exact ⟨⟨fun hx => absurd (hx ▸ hxj) (not_lt.2 hja.le), hxW⟩, hxj⟩
  rw [oplus, this, oplus]

theorem acc_erase {W : Finset α} {a j : α} (hja : j < a) :
    ctx.acc (W.erase a) j ↔ ctx.acc W j := by
  have hne : j ≠ a := ne_of_lt hja
  have hmem : ∀ x : α, x < j → (x ∈ W.erase a ↔ x ∈ W) := by
    intro x hx
    rw [Finset.mem_erase]
    exact ⟨fun h => h.2, fun h => ⟨ne_of_lt (hx.trans hja), h⟩⟩
  rw [acc, acc, ctx.oplus_erase hja]
  constructor
  · rintro ⟨hjW, hmemO, hjW', hagree⟩
    have hag : ∀ {x : α}, x < j → (x ∈ W.erase a ↔ x ∈ ctx.oplus W j) :=
      fun hx => ltAt_agree ⟨hmemO, hjW', hagree⟩ hx
    refine ⟨fun h => hjW (Finset.mem_erase.2 ⟨hne, h⟩), hmemO,
      fun h => hjW (Finset.mem_erase.2 ⟨hne, h⟩), fun x hx hxj => ?_⟩
    rw [← hmem x hxj]
    exact hag hxj
  · rintro ⟨hjW, hmemO, hjW', hagree⟩
    have hag : ∀ {x : α}, x < j → (x ∈ W ↔ x ∈ ctx.oplus W j) :=
      fun hx => ltAt_agree ⟨hmemO, hjW', hagree⟩ hx
    refine ⟨fun h => hjW (Finset.mem_erase.1 h).2, hmemO,
      fun h => hjW (Finset.mem_erase.1 h).2, fun x hx hxj => ?_⟩
    rw [hmem x hxj]
    exact hag hxj

end ConceptLattice

namespace ConceptLattice

variable (ctx : ConceptLattice ε α)

/-- If the scan over pivot list `L` (strictly descending, inside the attribute
universe, containing all of `W`) returns `some C`, then `C = W ⊕ j` for the
largest acceptable pivot `j` in `L`. -/
theorem nextClosureScan_eq_some {L : List α} {W C : Finset α}
    (hL : L.Pairwise (· > ·)) (hLU : ∀ x ∈ L, x ∈ ctx.attributes)
    (hWL : ∀ x ∈ W, x ∈ L) (h : ctx.nextClosureScan L W = some C) :
    ∃ j, j ∈ L ∧ ctx.acc W j ∧ C = ctx.oplus W j ∧ ∀ i ∈ L, ctx.acc W i → i ≤ j := by
  induction L generalizing W with
  | nil => simp [nextClosureScan] at h
  | cons a rest ih =>
    have hrest : rest.Pairwise (· > ·) := hL.of_cons
    have hagt : ∀ x ∈ rest, x < a := fun x hx => List.rel_of_pairwise_cons hL hx
    have hrestU : ∀ x ∈ rest, x ∈ ctx.attributes :=
      fun x hx => hLU x (List.mem_cons_of_mem _ hx)
    by_cases haW : a ∈ W
    · rw [show ctx.nextClosureScan (a :: rest) W = ctx.nextClosureScan rest (W.erase a) by
        simp [nextClosureScan, haW]] at h
      have hWL' : ∀ x ∈ W.erase a, x ∈ rest := by
        intro x hx
        rcases Finset.mem_erase.1 hx with ⟨hxa, hxW⟩
        exact (List.mem_cons.1 (hWL x hxW)).resolve_left hxa
      obtain ⟨j, hjrest, hjacc, hC, hmax⟩ := ih hrest hrestU hWL' h
      have hja : j < a := hagt j hjrest
      refine ⟨j, List.mem_cons_of_mem _ hjrest, (ctx.acc_erase hja).1 hjacc,
        by rw [hC, ctx.oplus_erase hja], ?_⟩
      intro i hi hacci
      rcases List.mem_cons.1 hi with rfl | hi'
      · exact absurd haW hacci.1
      · exact hmax i hi' ((ctx.acc_erase (hagt i hi')).2 hacci)
    · have hWrest : ∀ x ∈ W, x ∈ rest :=
        fun x hx => (List.mem_cons.1 (hWL x hx)).resolve_left (fun he => haW (he ▸ hx))
      have hWlt : ∀ x ∈ W, x < a := fun x hx => hagt x (hWrest x hx)
      have hWU : W ⊆ ctx.attributes := fun x hx => hLU x (hWL x hx)
      have haU : a ∈ ctx.attributes := hLU a (List.mem_cons_self a rest)
      have heq : ctx.nextClosureScan (a :: rest) W =
          if ctx.closure_at (insert a W) ≠ W ∧
              ¬ ∃ b ∈ ctx.closure_at (insert a W) \ W, b < a then
            some (ctx.closure_at (insert a W))
          else ctx.nextClosureScan rest W := by
        simp [nextClosureScan, haW]
      rw [heq] at h
      split_ifs at h with hcond
      · have hacc : ctx.acc W a := (ctx.accept_iff hWU haU hWlt haW).1 hcond
        refine ⟨a, List.mem_cons_self a rest, hacc,
          by rw [← Option.some_inj.1 h, ctx.closure_insert_eq_oplus hWlt], ?_⟩
        intro i hi hacci
        rcases List.mem_cons.1 hi with rfl | hi'
        · exact le_refl _
        · exact (hagt i hi').le
      · obtain ⟨j, hjrest, hjacc, hC, hmax⟩ := ih hrest hrestU hWrest h
        refine ⟨j, List.mem_cons_of_mem _ hjrest, hjacc, hC, ?_⟩
        intro i hi hacci
        rcases List.mem_cons.1 hi with rfl | hi'
        · exact absurd ((ctx.accept_iff hWU haU hWlt haW).2 hacci) hcond
        · exact hmax i hi' hacci

/-- If the scan returns `none`, no pivot in the list is acceptable. -/
theorem nextClosureScan_eq_none {L : List α} {W : Finset α}
    (hL : L.Pairwise (· > ·)) (hLU : ∀ x ∈ L, x ∈ ctx.attributes)
    (hWL : ∀ x ∈ W, x ∈ L) (h : ctx.nextClosureScan L W = none) :
    ∀ i ∈ L, ¬ ctx.acc W i := by
  induction L generalizing W with
  | nil => simp
  | cons a rest ih =>
    have hrest : rest.Pairwise (· > ·) := hL.of_cons
    have hagt : ∀ x ∈ rest, x < a := fun x hx => List.rel_of_pairwise_cons hL hx
    have hrestU : ∀ x ∈ rest, x ∈ ctx.attributes :=
      fun x hx => hLU x (List.mem_cons_of_mem _ hx)
    by_cases haW : a ∈ W
    · rw [show ctx.nextClosureScan (a :: rest) W = ctx.nextClosureScan rest (W.erase a) by
        simp [nextClosureScan, haW]] at h
      have hWL' : ∀ x ∈ W.erase a, x ∈ rest := by
        intro x hx
        rcases Finset.mem_erase.1 hx with ⟨hxa, hxW⟩
        exact (List.mem_cons.1 (hWL x hxW)).resolve_left hxa
      have hno := ih hrest hrestU hWL' h
      intro i hi hacci
      rcases List.mem_cons.1 hi with rfl | hi'
      · exact absurd haW hacci.1
      · exact hno i hi' ((ctx.acc_erase (hagt i hi')).2 hacci)
    · have hWrest : ∀ x ∈ W, x ∈ rest :=
        fun x hx => (List.mem_cons.1 (hWL x hx)).resolve_left (fun he => haW (he ▸ hx))
      have hWlt : ∀ x ∈ W, x < a := fun x hx => hagt x (hWrest x hx)
      have hWU : W ⊆ ctx.attributes := fun x hx => hLU x (hWL x hx)
      have haU : a ∈ ctx.attributes := hLU a (List.mem_cons_self a rest)
      have heq : ctx.nextClosureScan (a :: rest) W =
          if ctx.closure_at (insert a W) ≠ W ∧
              ¬ ∃ b ∈ ctx.closure_at (insert a W) \ W, b < a then
            some (ctx.closure_at (insert a W))
          else ctx.nextClosureScan rest W := by
        simp [nextClosureScan, haW]
      rw [heq] at h
      by_cases hcond : ctx.closure_at (insert a W) ≠ W ∧
          ¬ ∃ b ∈ ctx.closure_at (insert a W) \ W, b < a
      · rw [if_pos hcond] at h
        exact absurd h (Option.some_ne_none _)
      · rw [if_neg hcond] at h
        have hno := ih hrest hrestU hWrest h
        intro i hi hacci
        rcases List.mem_cons.1 hi with rfl | hi'
        · exact absurd ((ctx.accept_iff hWU haU hWlt haW).2 hacci) hcond
        · exact hno i hi' hacci

end ConceptLattice

/-! ## The descending attribute list -/

theorem mem_finsetSortAsc {s : Finset α} {a : α} : a ∈ finsetSortAsc s ↔ a ∈ s := by
  rcases s with ⟨m, hm⟩
  induction m using Quotient.inductionOn with
  | h l =>
    show a ∈ l.insertionSort (· ≤ ·) ↔ _
    rw [(l.perm_insertionSort (· ≤ ·)).mem_iff]
    simp [Finset.mem_mk]

theorem sorted_finsetSortAsc (s : Finset α) : (finsetSortAsc s).Sorted (· ≤ ·) := by
  rcases s with ⟨m, hm⟩
  induction m using Quotient.inductionOn with
  | h l => exact l.sorted_insertionSort (· ≤ ·)

theorem nodup_finsetSortAsc (s : Finset α) : (finsetSortAsc s).Nodup := by
  rcases s with ⟨m, hm⟩
  induction m using Quotient.inductionOn with
  | h l => exact ((l.perm_insertionSort (· ≤ ·)).nodup_iff).2 hm

namespace ConceptLattice

variable (ctx : ConceptLattice ε α)

theorem mem_sortedAttributesDesc {a : α} :
    a ∈ ctx.sortedAttributesDesc ↔ a ∈ ctx.attributes := by
  rw [sortedAttributesDesc, List.mem_reverse, mem_finsetSortAsc]

theorem pairwise_sortedAttributesDesc : ctx.sortedAttributesDesc.Pairwise (· > ·) := by
  rw [sortedAttributesDesc, List.pairwise_reverse]
  exact (sorted_finsetSortAsc ctx.attributes).lt_of_le (nodup_finsetSortAsc ctx.attributes)

/-- Specification of `next_closure` on success: the returned set is the
lectically smallest closed set strictly above the input. -/
theorem next_closure_eq_some {W C : Finset α} (hW : W ⊆ ctx.attributes)
    (h : ctx.next_closure W = some C) :
    ctx.IsClosed C ∧ C ⊆ ctx.attributes ∧ C ≠ ∅ ∧ lectic W C ∧
      ∀ B, B ⊆ ctx.attributes → ctx.IsClosed B → lectic W B → (C = B ∨ lectic C B) := by
  obtain ⟨j, hjL, hjacc, hC, hmax⟩ := ctx.nextClosureScan_eq_some
    ctx.pairwise_sortedAttributesDesc (fun x hx => ctx.mem_sortedAttributesDesc.1 hx)
    (fun x hx => ctx.mem_sortedAttributesDesc.2 (hW hx)) h
  have hjU : j ∈ ctx.attributes := ctx.mem_sortedAttributesDesc.1 hjL
  have hclosed : ctx.IsClosed C := hC ▸ ctx.isClosed_oplus hW hjU
  have hsub : C ⊆ ctx.attributes := hC ▸ ctx.oplus_subset_univ W j
  have hne : C ≠ ∅ := by
    intro hCe
    have := ctx.mem_oplus_self hW hjU
    rw [← hC, hCe] at this
    simp at this
  have hlec : lectic W C := hC ▸ lectic_of_ltAt hjacc.2
  refine ⟨hclosed, hsub, hne, hlec, ?_⟩
  intro B hBU hBc hWB
  rcases hWB with ⟨i, hiB, hlt⟩
  have hiacc : ctx.acc W i := (ctx.ltAt_oplus_subset_acc hW hBU hBc hlt).2
  have hij : i ≤ j := hmax i (ctx.mem_sortedAttributesDesc.2 (hBU hiB)) hiacc
  rw [hC]
  exact ctx.oplus_eq_or_lectic hW hBU hBc hlt hjacc hij

/-- Specification of `next_closure` on failure: only the full attribute
universe has no successor. -/
theorem next_closure_eq_none {W : Finset α} (hW : W ⊆ ctx.attributes)
    (h : ctx.next_closure W = none) : W = ctx.attributes := by
  by_contra hne
  have hno := ctx.nextClosureScan_eq_none ctx.pairwise_sortedAttributesDesc
    (fun x hx => ctx.mem_sortedAttributesDesc.1 hx)
    (fun x hx => ctx.mem_sortedAttributesDesc.2 (hW hx)) h
  rcases subset_eq_or_lectic hW with heq | hlec
  · exact hne heq
  · rcases hlec with ⟨i, hiU, hlt⟩
    have hiacc : ctx.acc W i :=
      (ctx.ltAt_oplus_subset_acc hW (Finset.Subset.refl _) ctx.isClosed_univ hlt).2
    exact hno i (ctx.mem_sortedAttributesDesc.2 hiU) hiacc

end ConceptLattice

instance : IsTrans (Finset α) lectic :=
  ⟨fun X Y Z => lectic_trans⟩

/-! ## The extraction loop -/

namespace ConceptLattice

variable (ctx : ConceptLattice ε α)

/-- Termination measure for the `while` loop: the number of subsets of the
attribute universe lectically above the working set. -/
def lecticMeasure (W : Finset α) : Nat :=
  ((ctx.attributes.powerset).filter (fun S => lectic W S)).card

theorem lecticMeasure_lt {W C : Finset α} (hC : C ⊆ ctx.attributes)
    (hlec : lectic W C) : ctx.lecticMeasure C < ctx.lecticMeasure W := by
  apply Finset.card_lt_card
  rw [Finset.ssubset_iff_of_subset]
  · exact ⟨C, Finset.mem_filter.2 ⟨Finset.mem_powerset.2 hC, hlec⟩,
      fun hmem => lectic_irrefl C (Finset.mem_filter.1 hmem).2⟩
  · intro S hS
    rcases Finset.mem_filter.1 hS with ⟨hS1, hS2⟩
    exact Finset.mem_filter.2 ⟨hS1, lectic_trans hlec hS2⟩

/-- Full behaviour of a successful run of the extraction loop: the produced
intensions form a lectically increasing chain, are all closed subsets of the
attribute universe, and every closed subset lectically above the start
appears. -/
theorem extractLoop_spec {fuel : Nat} {curr : Finset α} {l : List (Finset α)}
    (hcurr : curr ⊆ ctx.attributes) (h : ctx.extractLoop fuel curr = some l) :
    List.Chain lectic curr l ∧ (∀ D ∈ l, ctx.IsClosed D ∧ D ⊆ ctx.attributes) ∧
      (∀ D, D ⊆ ctx.attributes → ctx.IsClosed D → lectic curr D → D ∈ l) := by
  induction fuel generalizing curr l with
  | zero => simp [extractLoop] at h
  | succ fuel ih =>
    rw [extractLoop] at h
    by_cases hU : curr = ctx.attributes
    · rw [if_pos hU] at h
      obtain rfl : ([] : List (Finset α)) = l := Option.some_inj.1 h
      refine ⟨List.Chain.nil, by simp, ?_⟩
      intro D hD hDc hlec
      rw [hU] at hlec
      exact absurd hlec (not_lectic_univ hD)
    · rw [if_neg hU] at h
      cases hnc : ctx.next_closure curr with
      | none =>
        rw [hnc] at h
        exact Option.noConfusion (show (none : Option (List (Finset α))) = some l from h)
      | some c =>
        rw [hnc] at h
        obtain ⟨hc_closed, hcU, hc_ne, hc_lec, hc_min⟩ := ctx.next_closure_eq_some hcurr hnc
        replace h : (if c = ∅ then none
            else (ctx.extractLoop fuel c).map (fun l => c :: l)) = some l := h
        rw [if_neg hc_ne] at h
        cases hrec : ctx.extractLoop fuel c with
        | none => rw [hrec] at h; exact Option.noConfusion h
        | some l' =>
          rw [hrec, Option.map_some'] at h
          obtain rfl : c :: l' = l := Option.some_inj.1 h
          obtain ⟨ih_chain, ih_sound, ih_comp⟩ := ih hcU hrec
          refine ⟨List.Chain.cons hc_lec ih_chain, ?_, ?_⟩
          · intro D hD
            rcases List.mem_cons.1 hD with rfl | hDl
            · exact ⟨hc_closed, hcU⟩
            · exact ih_sound D hDl
          · intro D hDU hDc hlec
            rcases hc_min D hDU hDc hlec with rfl | hlt
            · exact List.mem_cons_self _ _
            · exact List.mem_cons_of_mem _ (ih_comp D hDU hDc hlt)

/-- The loop always succeeds when given more fuel than the measure. -/
theorem extractLoop_isSome {fuel : Nat} {curr : Finset α}
    (hcurr : curr ⊆ ctx.attributes) (hfuel : ctx.lecticMeasure curr < fuel) :
    ∃ l, ctx.extractLoop fuel curr = some l := by
  induction fuel generalizing curr with
  | zero => omega
  | succ fuel ih =>
    by_cases hU : curr = ctx.attributes
    · exact ⟨[], by rw [extractLoop, if_pos hU]⟩
    · cases hnc : ctx.next_closure curr with
      | none => exact absurd (ctx.next_closure_eq_none hcurr hnc) hU
      | some c =>
        obtain ⟨hc_closed, hcU, hc_ne, hc_lec, _⟩ := ctx.next_closure_eq_some hcurr hnc
        have hdec : ctx.lecticMeasure c < ctx.lecticMeasure curr :=
          ctx.lecticMeasure_lt hcU hc_lec
        obtain ⟨l', hl'⟩ := ih hcU (by omega)
        refine ⟨c :: l', ?_⟩
        rw [extractLoop, if_neg hU, hnc]
        show (if c = ∅ then none
            else (ctx.extractLoop fuel c).map (fun l => c :: l)) = some (c :: l')
        rw [if_neg hc_ne, hl', Option.map_some']

/-- Totality: `extract_concepts` (via `extract_intensions`) always returns a list:
neither the early `return` on an empty successor nor the crash-on-`None`
path is reachable. -/
theorem extract_intensions_eq_some : ∃ l, ctx.extract_intensions = some l := by
  apply ctx.extractLoop_isSome (Finset.empty_subset _)
  have hle : ctx.lecticMeasure ∅ ≤ 2 ^ ctx.attributes.card := by
    calc ctx.lecticMeasure ∅ ≤ ctx.attributes.powerset.card := Finset.card_filter_le _ _
    _ = 2 ^ ctx.attributes.card := Finset.card_powerset _
  omega

/-- Membership in the produced intension list, for a non-empty attribute
universe: exactly the closed subsets of the attribute universe. -/
theorem mem_extract_intensions {l : List (Finset α)} (hU : ctx.attributes ≠ ∅)
    (h : ctx.extract_intensions = some l) {D : Finset α} :
    D ∈ l ↔ (D ⊆ ctx.attributes ∧ ctx.IsClosed D) := by
  obtain ⟨hchain, hsound, hcomp⟩ := ctx.extractLoop_spec (Finset.empty_subset _) h
  constructor
  · intro hD
    exact ⟨(hsound D hD).2, (hsound D hD).1⟩
  · rintro ⟨hDU, hDc⟩
    exact hcomp D hDU hDc (empty_lectic (hDc.ne_empty hU))

/-- The produced intension list is strictly increasing in the lectic order. -/
theorem extract_intensions_pairwise {l : List (Finset α)}
    (h : ctx.extract_intensions = some l) : l.Pairwise lectic := by
  obtain ⟨hchain, -, -⟩ := ctx.extractLoop_spec (Finset.empty_subset _) h
  exact (List.chain_iff_pairwise.1 hchain).of_cons

theorem extract_intensions_nodup {l : List (Finset α)}
    (h : ctx.extract_intensions = some l) : l.Nodup :=
  (ctx.extract_intensions_pairwise h).imp (fun hl => lectic_ne hl)

theorem extract_intensions_closed {l : List (Finset α)}
    (h : ctx.extract_intensions = some l) {D : Finset α} (hD : D ∈ l) :
    ctx.IsClosed D ∧ D ⊆ ctx.attributes :=
  (ctx.extractLoop_spec (Finset.empty_subset _) h).2.1 D hD

end ConceptLattice

/-! ## Relating concepts to intensions -/

namespace ConceptLattice

variable (ctx : ConceptLattice ε α)

/-- Unpacking a successful `extract_concepts` run: the concepts are exactly the
enumerated intensions paired with their `up`-extensions, in order. -/
theorem extract_concepts_spec {cs : List (Concept ε α)}
    (h : ctx.extract_concepts = some cs) :
    ∃ l, ctx.extract_intensions = some l ∧ cs.map Concept.intension = l ∧
      ∀ c ∈ cs, c.extension = ctx.up c.intension := by
  rw [extract_concepts] at h
  cases hl : ctx.extract_intensions with
  | none => rw [hl] at h; exact Option.noConfusion h
  | some l =>
    rw [hl, Option.map_some'] at h
    obtain rfl : l.enum.map (fun p => (⟨p.1, ctx.up p.2, p.2⟩ : Concept ε α)) = cs :=
      Option.some_inj.1 h
    refine ⟨l, rfl, ?_, ?_⟩
    · rw [List.map_map]
      show l.enum.map Prod.snd = l
      exact List.enumFrom_map_snd 0 l
    · intro c hc
      rcases List.mem_map.1 hc with ⟨p, hp, rfl⟩
      rfl

/-- Every enumerated intension gives rise to a concept with extension
`up(intension)`. -/
theorem mem_extract_concepts_of_mem_intensions {l : List (Finset α)} {I : Finset α}
    (h : ctx.extract_intensions = some l) (hI : I ∈ l) :
    ∃ cs c, ctx.extract_concepts = some cs ∧ c ∈ cs ∧
      Concept.intension c = I ∧ Concept.extension c = ctx.up I := by
  have hcs : ctx.extract_concepts =
      some (l.enum.map (fun p => (⟨p.1, ctx.up p.2, p.2⟩ : Concept ε α))) := by
    rw [extract_concepts, h, Option.map_some']
  rcases List.mem_iff_get.1 hI with ⟨n, hn⟩
  have hmem : ((n : ℕ), I) ∈ l.enum := by
    rw [List.mem_enum_iff_getElem?]
    rw [List.getElem?_eq_some]
    exact ⟨by simp, by simpa [List.get_eq_getElem] using hn⟩
  exact ⟨_, ⟨n, ctx.up I, I⟩, hcs,
    List.mem_map.2 ⟨((n : ℕ), I), hmem, rfl⟩, rfl, rfl⟩

/-- The set of subsets realizable as closures is exactly the set of closed
subsets of the attribute universe. -/
theorem closure_image_iff {D : Finset α} :
    (∃ A ⊆ ctx.attributes, ctx.closure_at A = D) ↔
      (D ⊆ ctx.attributes ∧ ctx.IsClosed D) := by
  constructor
  · rintro ⟨A, hA, rfl⟩
    exact ⟨ctx.closure_at_subset A, ctx.isClosed_closure_at hA⟩
  · rintro ⟨hD, hDc⟩
    exact ⟨D, hD, hDc⟩

end ConceptLattice

/-! ## Concrete contexts

`ε = String`, `α = List Char`: a Python attribute string is embedded as its
code-point sequence, on which Mathlib's lexicographic order coincides with
Python string comparison.  (Entity identifiers are only ever compared for
equality, so plain `String` works for them.) -/

/-- The relation of specification scenario A (the source's `small_relation`). -/
def smallRelation : String → Finset (List Char) := fun e =>
  if e = "apple" then {"red".toList, "sweet".toList}
  else if e = "banana" then {"yellow".toList, "curved".toList}
  else if e = "carrot" then {"orange".toList, "crunchy".toList}
  else if e = "grape" then {"purple".toList, "small".toList}
  else if e = "lemon" then {"yellow".toList, "sour".toList}
  else if e = "orange" then {"orange".toList, "citrus".toList}
  else if e = "potato" then {"brown".toList, "starchy".toList}
  else ∅

/-- The concrete context of specification scenario A. -/
def smallCtx : ConceptLattice String (List Char) :=
  ⟨{"apple", "banana", "carrot", "grape", "lemon", "orange", "potato"}, smallRelation⟩

/-- The concepts the code actually discovers on `smallCtx`, in discovery
order. -/
def smallConcepts : List (Concept String (List Char)) :=
  [⟨0, {"banana", "lemon"}, {"yellow".toList}⟩,
   ⟨1, {"lemon"}, {"sour".toList, "yellow".toList}⟩,
   ⟨2, {"apple"}, {"red".toList, "sweet".toList}⟩,
   ⟨3, {"grape"}, {"purple".toList, "small".toList}⟩,
   ⟨4, {"carrot", "orange"}, {"orange".toList}⟩,
   ⟨5, {"banana"}, {"curved".toList, "yellow".toList}⟩,
   ⟨6, {"carrot"}, {"crunchy".toList, "orange".toList}⟩,
   ⟨7, {"orange"}, {"citrus".toList, "orange".toList}⟩,
   ⟨8, {"potato"}, {"brown".toList, "starchy".toList}⟩,
   ⟨9, ∅, {"brown".toList, "citrus".toList, "crunchy".toList, "curved".toList,
     "orange".toList, "purple".toList, "red".toList, "small".toList, "sour".toList,
     "starchy".toList, "sweet".toList, "yellow".toList}⟩]

/-- The two-entity context of specification scenario B:
`{e1: {a, b}, e2: {b, c}}`. -/
def twoCtx : ConceptLattice String (List Char) :=
  ⟨{"e1", "e2"}, fun e =>
    if e = "e1" then {"a".toList, "b".toList}
    else if e = "e2" then {"b".toList, "c".toList} else ∅⟩

/-- The first concept discovered on `twoCtx`. -/
def twoConceptsHead : Concept String (List Char) := ⟨0, {"e1", "e2"}, {"b".toList}⟩

/-- The concepts discovered on `twoCtx`, in discovery order. -/
def twoConcepts : List (Concept String (List Char)) :=
  [twoConceptsHead,
   ⟨1, {"e2"}, {"b".toList, "c".toList}⟩,
   ⟨2, {"e1"}, {"a".toList, "b".toList}⟩,
   ⟨3, ∅, {"a".toList, "b".toList, "c".toList}⟩]

/-- A context in which the two entities share no attribute. -/
def noShareCtx : ConceptLattice String (List Char) :=
  ⟨{"e1", "e2"}, fun e =>
    if e = "e1" then {"a".toList} else if e = "e2" then {"c".toList} else ∅⟩

/-- A context with entities but an empty attribute universe. -/
def emptyAttrCtx : ConceptLattice String (List Char) := ⟨{"e1", "e2"}, fun _ => ∅⟩

/-! ## Claims -/

/-- The claim C1 fails on the code: on the scenario-A context the computation
yields ten concepts, not one.  (Two entity pairs do share attributes —
`yellow` and `orange` — and, independently of that, the enumeration starts
from `∅` and so first reaches the lectically smallest closed set `{yellow}`,
not `closure_at(∅)`.) -/
theorem claim1_counterexample :
    (smallCtx.extract_concepts).map List.length = some 10 ∧
    (smallCtx.extract_concepts).map List.length ≠ some 1 := by
  have h : (smallCtx.extract_concepts).map List.length = some 10 := by decide
  exact ⟨h, by rw [h]; decide⟩

/-- C1 (amended): on the concrete scenario-A context the computation yields
exactly the ten concepts of `smallConcepts`; the last one (and only it) has
the full attribute universe as intension and the empty extension. -/
theorem claim1_amended :
    smallCtx.extract_concepts = some smallConcepts ∧
    smallConcepts.length = 10 ∧
    smallConcepts.getLast? = some ⟨9, ∅, smallCtx.attributes⟩ ∧
    (∀ c ∈ smallConcepts, c.intension = smallCtx.attributes → c.id = 9) := by
  refine ⟨by decide, by decide, by decide, by decide⟩

/-- The claim C2 fails on the code for an empty attribute universe: there
`closure_at(∅) = ∅` is obtainable by brute force, but the enumerator
produces no intension at all. -/
theorem claim2_counterexample :
    emptyAttrCtx.extract_concepts = some [] ∧
    (∅ : Finset (List Char)) ⊆ emptyAttrCtx.attributes ∧
    emptyAttrCtx.closure_at ∅ = ∅ ∧
    ¬ ∃ cs, emptyAttrCtx.extract_concepts = some cs ∧
      (∅ : Finset (List Char)) ∈ cs.map Concept.intension := by
  have h0 : emptyAttrCtx.extract_concepts = some [] := by decide
  refine ⟨h0, by decide, by decide, ?_⟩
  rintro ⟨cs, hcs, hmem⟩
  rw [h0] at hcs
  obtain rfl : ([] : List (Concept String (List Char))) = cs := Option.some_inj.1 hcs
  simp at hmem

/-- C2 (amended): for every finite input relation whose attribute universe is
non-empty, the set of intensions produced by `extract_concepts` is exactly the
set of closed attribute sets obtainable as `closure_at(A)` over all subsets
`A` of the attribute universe, and each appears exactly once (the produced
intension list has no duplicates). -/
theorem claim2_amended {ε α : Type} [DecidableEq ε] [LinearOrder α]
    (ctx : ConceptLattice ε α) (hU : ctx.attributes ≠ ∅) :
    ∃ cs, ctx.extract_concepts = some cs ∧
      (∀ D : Finset α, (∃ A ⊆ ctx.attributes, ctx.closure_at A = D) ↔
        D ∈ cs.map Concept.intension) ∧
      (cs.map Concept.intension).Nodup := by
  obtain ⟨l, hl⟩ := ctx.extract_intensions_eq_some
  have hcs : ctx.extract_concepts =
      some (l.enum.map (fun p => (⟨p.1, ctx.up p.2, p.2⟩ : Concept ε α))) := by
    rw [ConceptLattice.extract_concepts, hl, Option.map_some']
  obtain ⟨l', hl', hmap, hext⟩ := ctx.extract_concepts_spec hcs
  obtain rfl : l = l' := Option.some_inj.1 (hl ▸ hl')
  refine ⟨_, hcs, ?_, ?_⟩
  · intro D
    rw [hmap, ctx.closure_image_iff, ← ctx.mem_extract_intensions hU hl]
  · rw [hmap]
    exact ctx.extract_intensions_nodup hl

/-- Witness for C2 (amended) at the concrete scenario-B context. -/
theorem claim2_witness :
    ∃ cs, twoCtx.extract_concepts = some cs ∧
      (∀ D : Finset (List Char), (∃ A ⊆ twoCtx.attributes, twoCtx.closure_at A = D) ↔
        D ∈ cs.map Concept.intension) ∧
      (cs.map Concept.intension).Nodup :=
  claim2_amended twoCtx (by decide)

/-- C3: the sequence of intensions produced by the Next-Closure enumeration is
strictly increasing in the lectic order, hence contains no duplicate. -/
theorem claim3_lectic_strictly_increasing {ε α : Type} [DecidableEq ε] [LinearOrder α]
    (ctx : ConceptLattice ε α) (cs : List (Concept ε α))
    (h : ctx.extract_concepts = some cs) :
    (cs.map Concept.intension).Pairwise lectic ∧ (cs.map Concept.intension).Nodup := by
  obtain ⟨l, hl, hmap, -⟩ := ctx.extract_concepts_spec h
  rw [hmap]
  exact ⟨ctx.extract_intensions_pairwise hl, ctx.extract_intensions_nodup hl⟩

/-- Witness for C3 at the concrete scenario-B context. -/
theorem claim3_witness :
    (twoConcepts.map Concept.intension).Pairwise lectic ∧
      (twoConcepts.map Concept.intension).Nodup :=
  claim3_lectic_strictly_increasing twoCtx twoConcepts (by decide)

/-- C4: the cover-edge matrix has no self-loops; an entry is `1` exactly when
the source concept's intension is a strict subset of the target's with no
discovered concept strictly in between; and the edge relation is acyclic. -/
theorem claim4_cover_graph {ε α : Type} [DecidableEq ε] [LinearOrder α]
    (cs : List (Concept ε α)) :
    (∀ i, child_subchild_adj cs i i = 0) ∧
    (∀ i j, child_subchild_adj cs i j = 1 ↔
      ∃ (hi : i < cs.length) (hj : j < cs.length),
        (cs.get ⟨i, hi⟩).intension ⊂ (cs.get ⟨j, hj⟩).intension ∧
        ∀ other ∈ cs, ¬ ((cs.get ⟨i, hi⟩).intension ⊂ other.intension ∧
          other.intension ⊂ (cs.get ⟨j, hj⟩).intension)) ∧
    (∀ i, ¬ Relation.TransGen (fun i j => child_subchild_adj cs i j = 1) i i) := by
  have hadj : ∀ i j (hi : i < cs.length) (hj : j < cs.length),
      child_subchild_adj cs i j =
        if i ≠ j ∧ (cs.get ⟨i, hi⟩).intension ⊂ (cs.get ⟨j, hj⟩).intension ∧
            is_direct_child cs (cs.get ⟨i, hi⟩) (cs.get ⟨j, hj⟩) then 1 else 0 := by
    intro i j hi hj
    rw [child_subchild_adj, List.getElem?_eq_getElem hi, List.getElem?_eq_getElem hj]
    rfl
  have hzero : ∀ i j, cs.length ≤ i ∨ cs.length ≤ j → child_subchild_adj cs i j = 0 := by
    intro i j hij
    rw [child_subchild_adj]
    rcases hij with hij | hij
    · rw [List.getElem?_eq_none hij]
    · rw [List.getElem?_eq_none hij]
      cases cs[i]? <;> rfl
  have hedge : ∀ i j, child_subchild_adj cs i j = 1 →
      ∃ (hi : i < cs.length) (hj : j < cs.length),
        (cs.get ⟨i, hi⟩).intension ⊂ (cs.get ⟨j, hj⟩).intension := by
    intro i j h1
    by_cases hi : i < cs.length
    · by_cases hj : j < cs.length
      · rw [hadj i j hi hj] at h1
        split_ifs at h1 with hcond
        exact ⟨hi, hj, hcond.2.1⟩
      · rw [hzero i j (Or.inr (not_lt.1 hj))] at h1
        exact absurd h1 (by simp)
    · rw [hzero i j (Or.inl (not_lt.1 hi))] at h1
      exact absurd h1 (by simp)
  refine ⟨?_, ?_, ?_⟩
  · intro i
    by_cases hi : i < cs.length
    · rw [hadj i i hi hi, if_neg]
      rintro ⟨hne, -⟩
      exact hne rfl
    · exact hzero i i (Or.inl (not_lt.1 hi))
  · intro i j
    constructor
    · intro h1
      obtain ⟨hi, hj, hsub⟩ := hedge i j h1
      rw [hadj i j hi hj] at h1
      split_ifs at h1 with hcond
      exact ⟨hi, hj, hcond.2.1, hcond.2.2.2⟩
    · rintro ⟨hi, hj, hsub, hno⟩
      have hne : i ≠ j := by
        rintro rfl
        exact absurd hsub (ssubset_irrefl _)
      rw [hadj i j hi hj, if_pos ⟨hne, hsub, hsub, hno⟩]
  · intro i hTG
    have hmono : ∀ a b, child_subchild_adj cs a b = 1 →
        ((cs[a]?.elim 0 (fun c => c.intension.card)) <
          (cs[b]?.elim 0 (fun c => c.intension.card))) := by
      intro a b h1
      obtain ⟨ha, hb, hsub⟩ := hedge a b h1
      rw [List.getElem?_eq_getElem ha, List.getElem?_eq_getElem hb]
      exact Finset.card_lt_card hsub
    have : ∀ a b, Relation.TransGen (fun i j => child_subchild_adj cs i j = 1) a b →
        ((cs[a]?.elim 0 (fun c => c.intension.card)) <
          (cs[b]?.elim 0 (fun c => c.intension.card))) := by
      intro a b h
      induction h with
      | single h1 => exact hmono _ _ h1
      | tail h1 h2 ih => exact lt_trans ih (hmono _ _ h2)
    exact lt_irrefl _ (this i i hTG)

/-- Witness for C4 at the concrete scenario-B concept list. -/
theorem claim4_witness :
    (∀ i, child_subchild_adj twoConcepts i i = 0) ∧
    (∀ i j, child_subchild_adj twoConcepts i j = 1 ↔
      ∃ (hi : i < twoConcepts.length) (hj : j < twoConcepts.length),
        (twoConcepts.get ⟨i, hi⟩).intension ⊂ (twoConcepts.get ⟨j, hj⟩).intension ∧
        ∀ other ∈ twoConcepts,
          ¬ ((twoConcepts.get ⟨i, hi⟩).intension ⊂ other.intension ∧
            other.intension ⊂ (twoConcepts.get ⟨j, hj⟩).intension)) ∧
    (∀ i, ¬ Relation.TransGen (fun i j => child_subchild_adj twoConcepts i j = 1) i i) :=
  claim4_cover_graph twoConcepts

/-- The claim C5 fails on the code at `A = ∅`: `closure_at(∅)` is the full
attribute universe, which is not contained in `closure_at({b})` = `{b}`. -/
theorem claim5_counterexample :
    (∅ : Finset (List Char)) ⊆ {"b".toList} ∧
    ({"b".toList} : Finset (List Char)) ⊆ twoCtx.attributes ∧
    ¬ twoCtx.closure_at ∅ ⊆ twoCtx.closure_at {"b".toList} := by decide

/-- C5 (amended): `closure_at` is monotone on non-empty attribute subsets:
for `∅ ≠ A ⊆ B ⊆ attributes`, `closure_at(A) ⊆ closure_at(B)`.  (At `A = ∅`
monotonicity genuinely fails, because `closure_at(∅)` is the full universe.) -/
theorem claim5_amended {ε α : Type} [DecidableEq ε] [LinearOrder α]
    (ctx : ConceptLattice ε α) (A B : Finset α) (hne : A ≠ ∅)
    (hAB : A ⊆ B) (hBU : B ⊆ ctx.attributes) : ctx.closure_at A ⊆ ctx.closure_at B :=
  ctx.closure_at_mono hne hAB

/-- Witness for C5 (amended) at a concrete pair of subsets. -/
theorem claim5_witness :
    twoCtx.closure_at {"b".toList} ⊆ twoCtx.closure_at {"a".toList, "b".toList} :=
  claim5_amended twoCtx {"b".toList} {"a".toList, "b".toList}
    (by decide) (by decide) (by decide)

/-- The claim C6 fails on the code: for two entities sharing no attribute,
`down(X) = ∅`, so `up(down(X)) = up(∅) = ∅` does not contain `X`. -/
theorem claim6_counterexample :
    ({"e1", "e2"} : Finset String) ⊆ noShareCtx.entities ∧
    ¬ ({"e1", "e2"} : Finset String) ⊆ noShareCtx.closure_ent {"e1", "e2"} := by decide

/-- C6 (amended): `up(down(X)) ⊇ X` holds whenever `down(X) ≠ ∅` (or `X = ∅`);
`down(up(Y)) ⊇ Y` holds for every `Y` inside the attribute universe; and (for
a non-empty attribute universe) equality holds exactly when `X` (resp. `Y`)
is the extension (resp. intension) of a discovered concept. -/
theorem claim6_amended {ε α : Type} [DecidableEq ε] [LinearOrder α]
    (ctx : ConceptLattice ε α) (hU : ctx.attributes ≠ ∅)
    (X : Finset ε) (Y : Finset α) (hX : X ⊆ ctx.entities) (hY : Y ⊆ ctx.attributes) :
    ((X = ∅ ∨ ctx.down X ≠ ∅) → X ⊆ ctx.closure_ent X) ∧
    Y ⊆ ctx.closure_at Y ∧
    (ctx.closure_ent X = X ↔
      ∃ cs c, ctx.extract_concepts = some cs ∧ c ∈ cs ∧ Concept.extension c = X) ∧
    (ctx.closure_at Y = Y ↔
      ∃ cs c, ctx.extract_concepts = some cs ∧ c ∈ cs ∧ Concept.intension c = Y) := by
  refine ⟨?_, ?_, ?_, ?_⟩
  · intro hcase
    by_cases hXe : X = ∅
    · rw [hXe]
      exact Finset.empty_subset _
    · have hdne : ctx.down X ≠ ∅ := hcase.resolve_left hXe
      intro e he
      rw [ConceptLattice.closure_ent,
        ctx.mem_up_of_subset hdne (ctx.down_subset X)]
      refine ⟨hX he, fun a ha => ?_⟩
      rw [ctx.mem_down hXe hX] at ha
      exact ctx.mem_invert_relation.2 ⟨hX he, ha.2 e he⟩
  · by_cases hYe : Y = ∅
    · rw [hYe]
      exact Finset.empty_subset _
    · exact ctx.subset_closure_at hYe hY
  · constructor
    · intro h
      have hdc : ctx.IsClosed (ctx.down X) := by
        show ctx.down (ctx.up (ctx.down X)) = ctx.down X
        rw [show ctx.up (ctx.down X) = X from h]
      obtain ⟨l, hl⟩ := ctx.extract_intensions_eq_some
      have hmem : ctx.down X ∈ l :=
        (ctx.mem_extract_intensions hU hl).2 ⟨ctx.down_subset X, hdc⟩
      obtain ⟨cs, c, hcs, hc, hint, hext⟩ :=
        ctx.mem_extract_concepts_of_mem_intensions hl hmem
      exact ⟨cs, c, hcs, hc, hext.trans h⟩
    · rintro ⟨cs, c, hcs, hc, hext⟩
      obtain ⟨l, hl, hmap, hexts⟩ := ctx.extract_concepts_spec hcs
      have hIl : c.intension ∈ l := by
        rw [← hmap]
        exact List.mem_map_of_mem _ hc
      have hIc : ctx.IsClosed c.intension := (ctx.extract_intensions_closed hl hIl).1
      have hXup : X = ctx.up c.intension := by rw [← hext, hexts c hc]
      show ctx.up (ctx.down X) = X
      rw [hXup]
      show ctx.up (ctx.down (ctx.up c.intension)) = ctx.up c.intension
      rw [show ctx.down (ctx.up c.intension) = c.intension from hIc]
  · constructor
    · intro h
      obtain ⟨l, hl⟩ := ctx.extract_intensions_eq_some
      have hmem : Y ∈ l := (ctx.mem_extract_intensions hU hl).2 ⟨hY, h⟩
      obtain ⟨cs, c, hcs, hc, hint, hext⟩ :=
        ctx.mem_extract_concepts_of_mem_intensions hl hmem
      exact ⟨cs, c, hcs, hc, hint⟩
    · rintro ⟨cs, c, hcs, hc, hint⟩
      obtain ⟨l, hl, hmap, -⟩ := ctx.extract_concepts_spec hcs
      have hIl : c.intension ∈ l := by
        rw [← hmap]
        exact List.mem_map_of_mem _ hc
      rw [← hint]
      exact (ctx.extract_intensions_closed hl hIl).1

/-- Witness for C6 (amended) at the concrete scenario-B context. -/
theorem claim6_witness :
    ((({"e1"} : Finset String) = ∅ ∨ twoCtx.down {"e1"} ≠ ∅) →
      ({"e1"} : Finset String) ⊆ twoCtx.closure_ent {"e1"}) ∧
    ({"b".toList} : Finset (List Char)) ⊆ twoCtx.closure_at {"b".toList} ∧
    (twoCtx.closure_ent {"e1"} = {"e1"} ↔
      ∃ cs c, twoCtx.extract_concepts = some cs ∧ c ∈ cs ∧
        Concept.extension c = {"e1"}) ∧
    (twoCtx.closure_at {"b".toList} = {"b".toList} ↔
      ∃ cs c, twoCtx.extract_concepts = some cs ∧ c ∈ cs ∧
        Concept.intension c = {"b".toList}) :=
  claim6_amended twoCtx (by decide) {"e1"} {"b".toList} (by decide) (by decide)

/-- The claim C7 fails on the code: a non-empty query whose attributes are all
absent from the inverted relation makes `up` call `set.intersection()` with no
arguments, raising `TypeError` instead of being silently skipped. -/
theorem claim7_counterexample : twoCtx.upRaisesTypeError {"z".toList} := by decide

/-- C7 (amended): as long as at least one attribute of the query occurs in the
inverted relation, `up` raises no error and absent attributes are silently
skipped: the result equals `up` of the present part alone. -/
theorem claim7_amended {ε α : Type} [DecidableEq ε] [LinearOrder α]
    (ctx : ConceptLattice ε α) (A : Finset α) (hpres : ctx.upPresent A ≠ ∅) :
    ¬ ctx.upRaisesTypeError A ∧ ctx.up A = ctx.up (ctx.upPresent A) := by
  have hAne : A ≠ ∅ := by
    intro h
    apply hpres
    rw [h]
    rfl
  constructor
  · rintro ⟨-, hp⟩
    exact hpres hp
  · have hpp : ctx.upPresent (ctx.upPresent A) = ctx.upPresent A :=
      ctx.upPresent_eq_of_subset (fun x hx => (Finset.mem_filter.1 hx).2)
    rw [ConceptLattice.up, ConceptLattice.up, if_neg hAne, if_neg hpres, hpp]

/-- Witness for C7 (amended): querying `{b, z}` (with `z` absent) neither
raises nor differs from querying the present part `{b}`. -/
theorem claim7_witness :
    ¬ twoCtx.upRaisesTypeError {"b".toList, "z".toList} ∧
      twoCtx.up {"b".toList, "z".toList} =
        twoCtx.up (twoCtx.upPresent {"b".toList, "z".toList}) :=
  claim7_amended twoCtx {"b".toList, "z".toList} (by decide)

/-- The claim C8 fails on the code: with an empty attribute universe the
computation raises no error but produces an empty concept list, not a single
concept with the full entity set as extension. -/
theorem claim8_counterexample :
    emptyAttrCtx.attributes = ∅ ∧ emptyAttrCtx.entities ≠ ∅ ∧
    emptyAttrCtx.extract_concepts = some [] ∧
    (emptyAttrCtx.extract_concepts).map List.length ≠ some 1 := by decide

/-- C8 (amended): for every input relation whose attribute universe is empty,
lattice construction does not fail and `extract_concepts` returns the empty
concept list. -/
theorem claim8_amended {ε α : Type} [DecidableEq ε] [LinearOrder α]
    (ctx : ConceptLattice ε α) (hU : ctx.attributes = ∅) :
    ctx.extract_concepts = some [] := by
  have hstep : ∀ (n : Nat) (curr : Finset α), curr = ctx.attributes →
      ctx.extractLoop (n + 1) curr = some [] := by
    intro n curr hc
    rw [ConceptLattice.extractLoop, if_pos hc]
  have h1 : ctx.extract_intensions = some [] := by
    rw [ConceptLattice.extract_intensions]
    have hfuel : 2 ^ ctx.attributes.card + 1 = 1 + 1 := by
      rw [hU]
      rfl
    rw [hfuel]
    exact hstep 1 ∅ hU.symm
  rw [ConceptLattice.extract_concepts, h1]
  rfl

/-- Witness for C8 (amended) at a concrete two-entity, zero-attribute
context. -/
theorem claim8_witness : emptyAttrCtx.extract_concepts = some [] :=
  claim8_amended emptyAttrCtx (by decide)

/-- C9: every concept produced by the computation is a Galois fixed point:
`up(intension) = extension` and `down(extension) = intension` hold exactly. -/
theorem claim9_round_trip {ε α : Type} [DecidableEq ε] [LinearOrder α]
    (ctx : ConceptLattice ε α) (cs : List (Concept ε α)) (c : Concept ε α)
    (h : ctx.extract_concepts = some cs) (hc : c ∈ cs) :
    ctx.up c.intension = c.extension ∧ ctx.down c.extension = c.intension := by
  obtain ⟨l, hl, hmap, hext⟩ := ctx.extract_concepts_spec h
  have hIl : c.intension ∈ l := by
    rw [← hmap]
    exact List.mem_map_of_mem _ hc
  have hIc : ctx.IsClosed c.intension := (ctx.extract_intensions_closed hl hIl).1
  have h1 : ctx.up c.intension = c.extension := (hext c hc).symm
  refine ⟨h1, ?_⟩
  rw [← h1]
  exact hIc

/-- Witness for C9 at the first concept discovered on the scenario-B
context. -/
theorem claim9_witness :
    twoCtx.up twoConceptsHead.intension = twoConceptsHead.extension ∧
      twoCtx.down twoConceptsHead.extension = twoConceptsHead.intension :=
  claim9_round_trip twoCtx twoConcepts twoConceptsHead (by decide) (by decide)

/-- C10: with a non-empty attribute universe, `next_closure` always returns a
non-empty successor on any proper subset of the attribute universe (so the
early-return branch of `extract_concepts` comparing it with `set()` is
unreachable), and `extract_concepts` always returns a list of concepts. -/
theorem claim10_no_early_return {ε α : Type} [DecidableEq ε] [LinearOrder α]
    (ctx : ConceptLattice ε α) (hU : ctx.attributes ≠ ∅) :
    (∀ W, W ⊆ ctx.attributes → W ≠ ctx.attributes →
      ∃ C, ctx.next_closure W = some C ∧ C ≠ ∅) ∧
    ∃ cs, ctx.extract_concepts = some cs := by
  constructor
  · intro W hW hWne
    cases hnc : ctx.next_closure W with
    | none => exact absurd (ctx.next_closure_eq_none hW hnc) hWne
    | some C =>
      obtain ⟨-, -, hCne, -, -⟩ := ctx.next_closure_eq_some hW hnc
      exact ⟨C, rfl, hCne⟩
  · obtain ⟨l, hl⟩ := ctx.extract_intensions_eq_some
    exact ⟨_, by rw [ConceptLattice.extract_concepts, hl, Option.map_some']⟩

/-- Witness for C10 at the concrete scenario-B context. -/
theorem claim10_witness :
    (∀ W, W ⊆ twoCtx.attributes → W ≠ twoCtx.attributes →
      ∃ C, twoCtx.next_closure W = some C ∧ C ≠ ∅) ∧
    ∃ cs, twoCtx.extract_concepts = some cs :=
  claim10_no_early_return twoCtx (by decide)

end Cora
